import Mathlib

/-
Verification of the likelihood propagation kernels in
`src/cogent3/evolve/_likelihood_tree_numba.py`.

The three kernels are embedded shallowly:

* `sum_input_likelihoods` — the Node Combiner.  Numpy 2-D float arrays are
  modelled as `List (List ℚ)` (idealized exact arithmetic in place of
  float64); the in-place mutation of the caller-supplied `result` buffer is
  modelled by explicit state passing through folds that mirror the source's
  nested `for` loops.  Out-of-bounds array accesses, which the compiled
  numba kernel leaves unchecked, are modelled by `List.getD` defaults and
  no-op `List.set`.
* `get_total_log_likelihood_step1` — the per-pattern Root Aggregator dot
  product, over ℚ.
* `get_log_sum_across_sites` — the Log Aggregator.  `numpy.log` on
  non-negative float input is modelled by `npLog : ℝ → EReal`, which sends
  0 to `⊥` (numpy's `-inf`) and a positive real to its natural logarithm;
  negative inputs (NaN in numpy) are outside the model.  The accumulating
  sum is a fold over `EReal`.
-/

namespace LikelihoodTree

/-! ### List index/update helper lemmas -/

theorem getD_set_self {α : Type} (l : List α) (i : ℕ) (a d : α) (h : i < l.length) :
    (l.set i a).getD i d = a := by
  induction l generalizing i with
  | nil => simp at h
  | cons x xs ih =>
    cases i with
    | zero => rfl
    | succ j => simpa using ih j (by simpa using h)

theorem getD_set_ne {α : Type} (l : List α) (i j : ℕ) (a d : α) (h : i ≠ j) :
    (l.set i a).getD j d = l.getD j d := by
  induction l generalizing i j with
  | nil => rfl
  | cons x xs ih =>
    cases i with
    | zero =>
      cases j with
      | zero => exact absurd rfl h
      | succ k => rfl
    | succ i' =>
      cases j with
      | zero => rfl
      | succ k => simpa using ih i' k (fun e => h (by omega))

theorem headD_eq_getD_zero {α : Type} (l : List α) (d : α) : l.headD d = l.getD 0 d := by
  cases l <;> rfl

theorem getD_set_length {α : Type} (l : List α) (i : ℕ) (a : α) :
    (l.set i a).length = l.length := List.length_set l i a

/-! ### The Node Combiner kernel

`sum_input_likelihoods(child_indexes, result, likelihoods)` from the source:

```
C = child_indexes.shape[0]
for child in range(C):
    index = child_indexes[child]
    plhs = likelihoods[child]
    index_height = index.shape[0]
    result_width = result.shape[1]
    if child == 0:
        for parent_col in range(index_height):
            child_col = index[parent_col]
            for motif in range(result_width):
                result[parent_col, motif] = plhs[child_col, motif]
    else:
        ... result[parent_col, motif] *= plhs[child_col, motif]
return result
```
-/

/-- The inner `for motif in range(result_width)` loop acting on the single
row `result[parent_col]`: when `first` is true it assigns
`plhs[child_col, motif]`, otherwise it multiplies it in.  `plhsRow` is the
row `plhs[child_col]`. -/
def rowPass (first : Bool) (plhsRow row : List ℚ) (width : ℕ) : List ℚ :=
  (List.range width).foldl
    (fun r motif =>
      r.set motif
        (if first then plhsRow.getD motif 0 else r.getD motif 0 * plhsRow.getD motif 0))
    row

/-- The `for parent_col in range(index_height)` loop for one child:
each parent row `parent_col` is combined with row `index[parent_col]` of
that child's likelihood matrix `plhs`.  `result_width = result.shape[1]`
is re-read from the buffer as the length of its first row, exactly as the
source re-reads it on every child iteration. -/
def childPass (first : Bool) (index : List ℕ) (plhs : List (List ℚ))
    (result : List (List ℚ)) : List (List ℚ) :=
  (List.range index.length).foldl
    (fun res parent_col =>
      res.set parent_col
        (rowPass first (plhs.getD (index.getD parent_col 0) [])
          (res.getD parent_col []) ((res.headD []).length)))
    result

/-- `sum_input_likelihoods`: the outer `for child in range(C)` loop; the
first child (`child == 0`) assigns, later children multiply in place, and
the mutated buffer is returned. -/
def sum_input_likelihoods (child_indexes : List (List ℕ)) (result : List (List ℚ))
    (likelihoods : List (List (List ℚ))) : List (List ℚ) :=
  (List.range child_indexes.length).foldl
    (fun res child =>
      childPass (child == 0) (child_indexes.getD child []) (likelihoods.getD child []) res)
    result

/-! ### The Root Aggregator kernel -/

/-- `get_total_log_likelihood_step1(input_likelihoods, mprobs)`:
`res = 0.0; for i in range(len(mprobs)): res += input_likelihoods[i] * mprobs[i]`. -/
def get_total_log_likelihood_step1 (input_likelihoods mprobs : List ℚ) : ℚ :=
  (List.range mprobs.length).foldl
    (fun res i => res + input_likelihoods.getD i 0 * mprobs.getD i 0) 0

/-! ### The Log Aggregator kernel -/

/-- `numpy.log` on a non-negative float64, valued in the extended reals:
`log 0 = -inf`, and the natural logarithm on positive input.  Negative
input (NaN in numpy) is outside the model. -/
noncomputable def npLog (x : ℝ) : EReal :=
  if x = 0 then ⊥ else ((Real.log x : ℝ) : EReal)

/-- `get_log_sum_across_sites(lhs, counts)`:
`log_lhs = numpy.log(lhs); res = 0.0;
for i in range(len(counts)): res += log_lhs[i] * counts[i]`. -/
noncomputable def get_log_sum_across_sites (lhs counts : List ℝ) : EReal :=
  (List.range counts.length).foldl
    (fun res i => res + (lhs.map npLog).getD i 0 * ((counts.getD i 0 : ℝ) : EReal)) 0

/-! ### Generic fold-over-range lemmas -/

theorem foldl_range_succ {α : Type} (f : α → ℕ → α) (b : α) (n : ℕ) :
    (List.range (n + 1)).foldl f b = f ((List.range n).foldl f b) n := by
  rw [List.range_succ, List.foldl_append]
  rfl

theorem foldl_range_ext {α : Type} (f g : α → ℕ → α) (n : ℕ) (init : α)
    (h : ∀ i, i < n → ∀ acc, f acc i = g acc i) :
    (List.range n).foldl f init = (List.range n).foldl g init := by
  induction n with
  | zero => rfl
  | succ k ih =>
    rw [foldl_range_succ, foldl_range_succ, ih (fun i hi acc => h i (by omega) acc),
      h k (by omega)]

theorem foldl_add_eq_sum {M : Type} [AddCommMonoid M] (t : ℕ → M) (n : ℕ) (init : M) :
    (List.range n).foldl (fun r i => r + t i) init = init + ∑ i ∈ Finset.range n, t i := by
  induction n with
  | zero => simp
  | succ k ih => rw [foldl_range_succ, ih, Finset.sum_range_succ, add_assoc]

theorem getD_map_lt {α β : Type} (f : α → β) (l : List α) (i : ℕ) (d : β) (d' : α)
    (h : i < l.length) : (l.map f).getD i d = f (l.getD i d') := by
  induction l generalizing i with
  | nil => simp at h
  | cons x xs ih =>
    cases i with
    | zero => rfl
    | succ j => simpa using ih j (by simpa using h)

theorem getD_take {α : Type} (l : List α) (n i : ℕ) (d : α) (h : i < n) :
    (l.take n).getD i d = l.getD i d := by
  induction l generalizing n i with
  | nil => simp
  | cons a t ih =>
    cases n with
    | zero => omega
    | succ k =>
      cases i with
      | zero => rfl
      | succ j => simpa using ih k j (by omega)

theorem list_map_prod_eq {α : Type} (l : List α) (g : α → ℚ) (d : α) :
    (l.map g).prod = ∏ c ∈ Finset.range l.length, g (l.getD c d) := by
  induction l with
  | nil => simp
  | cons a t ih =>
    rw [List.map_cons, List.prod_cons, ih, List.length_cons, Finset.prod_range_succ']
    rw [mul_comm]
    rfl

/-! ### rowPass lemmas -/

theorem rowPass_zero (first : Bool) (plhsRow row : List ℚ) :
    rowPass first plhsRow row 0 = row := rfl

theorem rowPass_succ (first : Bool) (plhsRow row : List ℚ) (w : ℕ) :
    rowPass first plhsRow row (w + 1) =
      (rowPass first plhsRow row w).set w
        (if first then plhsRow.getD w 0
         else (rowPass first plhsRow row w).getD w 0 * plhsRow.getD w 0) := by
  simp only [rowPass]
  rw [foldl_range_succ]

theorem rowPass_length (first : Bool) (plhsRow row : List ℚ) (w : ℕ) :
    (rowPass first plhsRow row w).length = row.length := by
  induction w with
  | zero => rfl
  | succ k ih => rw [rowPass_succ, List.length_set, ih]

theorem rowPass_nil (first : Bool) (plhsRow : List ℚ) (w : ℕ) :
    rowPass first plhsRow [] w = [] := by
  induction w with
  | zero => rfl
  | succ k ih => rw [rowPass_succ, ih]; rfl

theorem rowPass_getD (first : Bool) (plhsRow row : List ℚ) (w m : ℕ) (hm : m < row.length) :
    (rowPass first plhsRow row w).getD m 0 =
      if m < w then (if first then plhsRow.getD m 0 else row.getD m 0 * plhsRow.getD m 0)
      else row.getD m 0 := by
  induction w with
  | zero => simp [rowPass_zero]
  | succ k ih =>
    rw [rowPass_succ]
    by_cases hmk : m = k
    · subst hmk
      rw [getD_set_self _ _ _ _ (by rw [rowPass_length]; exact hm)]
      have hget : (rowPass first plhsRow row m).getD m 0 = row.getD m 0 := by
        rw [ih]; simp
      rw [hget]
      simp
    · rw [getD_set_ne _ _ _ _ _ (fun e => hmk e.symm), ih]
      by_cases h2 : m < k
      · simp [h2, Nat.lt_succ_of_lt h2]
      · have h3 : ¬m < k + 1 := by omega
        simp [h2, h3]

theorem rowPass_first_ext (plhsRow r1 r2 : List ℚ) (w : ℕ)
    (h1 : r1.length = w) (h2 : r2.length = w) :
    rowPass true plhsRow r1 w = rowPass true plhsRow r2 w := by
  apply List.ext_getElem
  · rw [rowPass_length, rowPass_length, h1, h2]
  · intro i hi1 hi2
    rw [← List.getD_eq_getElem _ 0 hi1, ← List.getD_eq_getElem _ 0 hi2]
    have hi1' : i < r1.length := by rwa [rowPass_length] at hi1
    have hi2' : i < r2.length := by rwa [rowPass_length] at hi2
    rw [rowPass_getD _ _ _ _ _ hi1', rowPass_getD _ _ _ _ _ hi2']
    have hiw : i < w := by omega
    simp [hiw]

/-! ### childPass lemmas -/

theorem childPass_fold_length (first : Bool) (index : List ℕ) (plhs : List (List ℚ))
    (res : List (List ℚ)) (n : ℕ) :
    (((List.range n).foldl
        (fun r parent_col =>
          r.set parent_col
            (rowPass first (plhs.getD (index.getD parent_col 0) [])
              (r.getD parent_col []) ((r.headD []).length)))
        res)).length = res.length := by
  induction n with
  | zero => rfl
  | succ k ih => rw [foldl_range_succ, List.length_set, ih]

theorem childPass_fold_getD (first : Bool) (index : List ℕ) (plhs : List (List ℚ))
    (res : List (List ℚ)) (n : ℕ) (p : ℕ) :
    (((List.range n).foldl
        (fun r parent_col =>
          r.set parent_col
            (rowPass first (plhs.getD (index.getD parent_col 0) [])
              (r.getD parent_col []) ((r.headD []).length)))
        res)).getD p [] =
      if p < n then
        rowPass first (plhs.getD (index.getD p 0) []) (res.getD p [])
          ((res.headD []).length)
      else res.getD p [] := by
  induction n generalizing p with
  | zero => simp
  | succ k ih =>
    rw [foldl_range_succ]
    have hhead : ((((List.range k).foldl
        (fun r parent_col =>
          r.set parent_col
            (rowPass first (plhs.getD (index.getD parent_col 0) [])
              (r.getD parent_col []) ((r.headD []).length)))
        res)).headD []).length = (res.headD []).length := by
      rw [headD_eq_getD_zero, headD_eq_getD_zero, ih 0]
      by_cases h0 : 0 < k
      · simp [h0, rowPass_length]
      · simp [h0]
    have hself : (((List.range k).foldl
        (fun r parent_col =>
          r.set parent_col
            (rowPass first (plhs.getD (index.getD parent_col 0) [])
              (r.getD parent_col []) ((r.headD []).length)))
        res)).getD k [] = res.getD k [] := by
      rw [ih k]; simp
    by_cases hpk : p = k
    · subst hpk
      by_cases hplt : p < (((List.range p).foldl
          (fun r parent_col =>
            r.set parent_col
              (rowPass first (plhs.getD (index.getD parent_col 0) [])
                (r.getD parent_col []) ((r.headD []).length)))
          res)).length
      · rw [getD_set_self _ _ _ _ hplt, hself, hhead]
        simp
      · rw [childPass_fold_length] at hplt
        have hres : res.getD p [] = [] :=
          List.getD_eq_default _ _ (by omega)
        rw [hres, rowPass_nil, if_pos (Nat.lt_succ_self p)]
        apply List.getD_eq_default
        rw [List.length_set, childPass_fold_length]
        omega
    · rw [getD_set_ne _ _ _ _ _ (fun e => hpk e.symm), ih p]
      by_cases h2 : p < k
      · simp [h2, Nat.lt_succ_of_lt h2]
      · have h3 : ¬p < k + 1 := by omega
        simp [h2, h3]

theorem childPass_getD (first : Bool) (index : List ℕ) (plhs : List (List ℚ))
    (res : List (List ℚ)) (p : ℕ) :
    (childPass first index plhs res).getD p [] =
      if p < index.length then
        rowPass first (plhs.getD (index.getD p 0) []) (res.getD p [])
          ((res.headD []).length)
      else res.getD p [] :=
  childPass_fold_getD first index plhs res index.length p

theorem childPass_length (first : Bool) (index : List ℕ) (plhs : List (List ℚ))
    (res : List (List ℚ)) :
    (childPass first index plhs res).length = res.length :=
  childPass_fold_length first index plhs res index.length

theorem childPass_row_length (first : Bool) (index : List ℕ) (plhs : List (List ℚ))
    (res : List (List ℚ)) (p : ℕ) :
    ((childPass first index plhs res).getD p []).length = (res.getD p []).length := by
  rw [childPass_getD]
  by_cases h : p < index.length
  · simp [h, rowPass_length]
  · simp [h]

theorem childPass_headD_length (first : Bool) (index : List ℕ) (plhs : List (List ℚ))
    (res : List (List ℚ)) :
    ((childPass first index plhs res).headD []).length = ((res.headD []).length) := by
  rw [headD_eq_getD_zero, headD_eq_getD_zero, childPass_row_length]

/-! ### sum_input_likelihoods lemmas -/

/-- The state of the Node Combiner after processing the first `n` children;
`sum_input_likelihoods` is `sumAux` at `n = child_indexes.length`. -/
def sumAux (child_indexes : List (List ℕ)) (likelihoods : List (List (List ℚ)))
    (result : List (List ℚ)) (n : ℕ) : List (List ℚ) :=
  (List.range n).foldl
    (fun res child =>
      childPass (child == 0) (child_indexes.getD child []) (likelihoods.getD child []) res)
    result

theorem sum_input_eq_sumAux (ci : List (List ℕ)) (res : List (List ℚ))
    (lhs : List (List (List ℚ))) :
    sum_input_likelihoods ci res lhs = sumAux ci lhs res ci.length := rfl

theorem sumAux_succ (ci : List (List ℕ)) (lhs : List (List (List ℚ)))
    (res : List (List ℚ)) (n : ℕ) :
    sumAux ci lhs res (n + 1) =
      childPass (n == 0) (ci.getD n []) (lhs.getD n []) (sumAux ci lhs res n) := by
  simp only [sumAux]
  rw [foldl_range_succ]

theorem sumAux_length (ci : List (List ℕ)) (lhs : List (List (List ℚ)))
    (res : List (List ℚ)) (n : ℕ) :
    (sumAux ci lhs res n).length = res.length := by
  induction n with
  | zero => rfl
  | succ k ih => rw [sumAux_succ, childPass_length, ih]

theorem sumAux_row_length (ci : List (List ℕ)) (lhs : List (List (List ℚ)))
    (res : List (List ℚ)) (n : ℕ) (p : ℕ) :
    ((sumAux ci lhs res n).getD p []).length = (res.getD p []).length := by
  induction n with
  | zero => rfl
  | succ k ih => rw [sumAux_succ, childPass_row_length, ih]

theorem sumAux_headD_length (ci : List (List ℕ)) (lhs : List (List (List ℚ)))
    (res : List (List ℚ)) (n : ℕ) :
    ((sumAux ci lhs res n).headD []).length = (res.headD []).length := by
  rw [headD_eq_getD_zero, headD_eq_getD_zero, sumAux_row_length]

theorem sumAux_getD (ci : List (List ℕ)) (lhs : List (List (List ℚ)))
    (res : List (List ℚ))
    (hmap : ∀ c, c < ci.length → (ci.getD c []).length = res.length)
    (hrect : ∀ p, p < res.length → (res.getD p []).length = (res.headD []).length)
    (n : ℕ) (hn : 0 < n) (hnc : n ≤ ci.length)
    (p m : ℕ) (hp : p < res.length) (hm : m < (res.headD []).length) :
    ((sumAux ci lhs res n).getD p []).getD m 0 =
      ∏ c ∈ Finset.range n,
        ((lhs.getD c []).getD ((ci.getD c []).getD p 0) []).getD m 0 := by
  induction n with
  | zero => omega
  | succ k ih =>
    rw [sumAux_succ, childPass_getD]
    rw [hmap k (by omega)]
    rw [if_pos hp, sumAux_headD_length]
    rw [rowPass_getD _ _ _ _ _ (by rw [sumAux_row_length]; rw [hrect p hp]; exact hm)]
    rw [if_pos hm]
    cases k with
    | zero =>
      simp only [zero_add, Finset.prod_range_one]
      rfl
    | succ j =>
      rw [if_neg (by simp)]
      rw [ih (by omega) (by omega), ← Finset.prod_range_succ]

theorem sum_input_length (ci : List (List ℕ)) (res : List (List ℚ))
    (lhs : List (List (List ℚ))) :
    (sum_input_likelihoods ci res lhs).length = res.length := by
  rw [sum_input_eq_sumAux, sumAux_length]

theorem sum_input_row_length (ci : List (List ℕ)) (res : List (List ℚ))
    (lhs : List (List (List ℚ))) (p : ℕ) :
    ((sum_input_likelihoods ci res lhs).getD p []).length = (res.getD p []).length := by
  rw [sum_input_eq_sumAux, sumAux_row_length]

/-- The core correctness formula of the Node Combiner: each in-bounds entry of
the returned buffer is the product, over all children, of the child likelihood
entry selected by that child's index map — independent of the buffer's prior
contents. -/
theorem sum_input_getD (ci : List (List ℕ)) (res : List (List ℚ))
    (lhs : List (List (List ℚ)))
    (h0 : ci ≠ [])
    (hmap : ∀ c, c < ci.length → (ci.getD c []).length = res.length)
    (hrect : ∀ p, p < res.length → (res.getD p []).length = (res.headD []).length)
    (p m : ℕ) (hp : p < res.length) (hm : m < (res.headD []).length) :
    ((sum_input_likelihoods ci res lhs).getD p []).getD m 0 =
      ∏ c ∈ Finset.range ci.length,
        ((lhs.getD c []).getD ((ci.getD c []).getD p 0) []).getD m 0 := by
  rw [sum_input_eq_sumAux]
  exact sumAux_getD ci lhs res hmap hrect ci.length (List.length_pos.mpr h0) le_rfl p m hp hm

/-- A first-child pass (`child == 0`, direct assignment) produces the same
buffer from any two starting buffers of the same shape: every entry is
overwritten before being read. -/
theorem childPass_first_ext (index : List ℕ) (plhs : List (List ℚ))
    (b1 b2 : List (List ℚ)) (W : ℕ)
    (hlen1 : b1.length = index.length) (hlen2 : b2.length = index.length)
    (hW1 : (b1.headD []).length = W) (hW2 : (b2.headD []).length = W)
    (hrect1 : ∀ p, p < b1.length → (b1.getD p []).length = W)
    (hrect2 : ∀ p, p < b2.length → (b2.getD p []).length = W) :
    childPass true index plhs b1 = childPass true index plhs b2 := by
  apply List.ext_getElem
  · rw [childPass_length, childPass_length, hlen1, hlen2]
  · intro p hp1 hp2
    rw [← List.getD_eq_getElem _ [] hp1, ← List.getD_eq_getElem _ [] hp2]
    rw [childPass_getD, childPass_getD]
    have hp1' : p < b1.length := by rwa [childPass_length] at hp1
    have hpi : p < index.length := by omega
    rw [if_pos hpi, if_pos hpi, hW1, hW2]
    exact rowPass_first_ext _ _ _ W (hrect1 p hp1') (hrect2 p (by omega))

/-! ### EReal fold lemmas for the Log Aggregator -/

theorem foldl_add_bot (t : ℕ → EReal) (n p : ℕ) (hp : p < n) (hb : t p = ⊥)
    (init : EReal) :
    (List.range n).foldl (fun r i => r + t i) init = ⊥ := by
  induction n with
  | zero => omega
  | succ k ih =>
    rw [foldl_range_succ]
    by_cases hpk : p = k
    · subst hpk; rw [hb, EReal.add_bot]
    · rw [ih (by omega), EReal.bot_add]

theorem ereal_add_add_coe (x y : EReal) (d : ℝ) :
    x + (y + (d : EReal)) = x + y + (d : EReal) := by
  induction x with
  | h_bot => simp [EReal.bot_add]
  | h_top =>
    induction y with
    | h_bot => simp [EReal.bot_add, EReal.add_bot]
    | h_real b => simp [← EReal.coe_add, EReal.top_add_coe]
    | h_top => simp [EReal.top_add_coe, EReal.top_add_top]
  | h_real a =>
    induction y with
    | h_bot => simp [EReal.bot_add, EReal.add_bot]
    | h_real b =>
      rw [← EReal.coe_add, ← EReal.coe_add, ← EReal.coe_add, ← EReal.coe_add]
      norm_cast
      ring
    | h_top => simp [EReal.top_add_coe, EReal.add_top_of_ne_bot, EReal.coe_ne_bot]

theorem ereal_add_coe_swap (x y : EReal) (r : ℝ) :
    x + (r : EReal) + y = x + y + (r : EReal) := by
  induction y with
  | h_bot => simp [EReal.add_bot, EReal.bot_add]
  | h_real b =>
    rw [← ereal_add_add_coe x b r, ← ereal_add_add_coe x r b, ← EReal.coe_add,
      ← EReal.coe_add, add_comm r b]
  | h_top =>
    induction x with
    | h_bot => simp [EReal.bot_add]
    | h_real a =>
      rw [← EReal.coe_add, EReal.add_top_of_ne_bot (EReal.coe_ne_bot (a + r)),
        EReal.add_top_of_ne_bot (EReal.coe_ne_bot a), EReal.top_add_coe]
    | h_top => simp [EReal.top_add_coe, EReal.top_add_top]

theorem foldl_add_shift (t t' : ℕ → EReal) (p : ℕ) (d : ℝ)
    (hne : ∀ i, i ≠ p → t' i = t i) (hpd : t' p = t p + (d : EReal))
    (n : ℕ) (hn : p < n) (init : EReal) :
    (List.range n).foldl (fun r i => r + t' i) init =
      (List.range n).foldl (fun r i => r + t i) init + (d : EReal) := by
  induction n with
  | zero => omega
  | succ k ih =>
    rw [foldl_range_succ, foldl_range_succ]
    by_cases hpk : p = k
    · subst hpk
      have heq : (List.range p).foldl (fun r i => r + t' i) init =
          (List.range p).foldl (fun r i => r + t i) init :=
        foldl_range_ext _ _ p init (fun i hi acc => by rw [hne i (by omega)])
      rw [heq, hpd, ereal_add_add_coe]
    · rw [ih (by omega), hne k (fun e => hpk e.symm), ereal_add_coe_swap]

theorem coe_sum_range (g : ℕ → ℝ) (n : ℕ) :
    ((∑ i ∈ Finset.range n, g i : ℝ) : EReal) = ∑ i ∈ Finset.range n, ((g i : ℝ) : EReal) := by
  induction n with
  | zero => simp
  | succ k ih => rw [Finset.sum_range_succ, Finset.sum_range_succ, ← ih, EReal.coe_add]

/-! ### Claim theorems -/

/-- C3: on a per-pattern root-likelihood row and a motif-probability vector of
equal length, `get_total_log_likelihood_step1` returns exactly their dot
product `∑ m, input_likelihoods[m] * mprobs[m]`; the function reads only this
one pattern's row, so no other pattern is read or depended on. -/
theorem claim_C3_step1_dot_product (input_likelihoods mprobs : List ℚ)
    (h : input_likelihoods.length = mprobs.length) :
    get_total_log_likelihood_step1 input_likelihoods mprobs =
      ∑ i ∈ Finset.range mprobs.length, input_likelihoods.getD i 0 * mprobs.getD i 0 := by
  have h2 := foldl_add_eq_sum
    (fun i => input_likelihoods.getD i 0 * mprobs.getD i 0) mprobs.length 0
  simpa [get_total_log_likelihood_step1] using h2

/-- Witness for C3 at `input_likelihoods = [2, 3]`, `mprobs = [5, 7]`. -/
theorem claim_C3_witness :
    [(2 : ℚ), 3].length = [(5 : ℚ), 7].length ∧
      get_total_log_likelihood_step1 [2, 3] [5, 7] =
        ∑ i ∈ Finset.range [(5 : ℚ), 7].length,
          [(2 : ℚ), 3].getD i 0 * [(5 : ℚ), 7].getD i 0 :=
  ⟨rfl, claim_C3_step1_dot_product [2, 3] [5, 7] rfl⟩

/-- C10: `get_total_log_likelihood_step1` iterates only over
`len(mprobs)` positions; with `input_likelihoods` strictly longer than
`mprobs`, the trailing entries are silently ignored and the result equals the
dot product of the first `len(mprobs)` entries with `mprobs`. -/
theorem claim_C10_step1_truncates (input_likelihoods mprobs : List ℚ)
    (h : mprobs.length < input_likelihoods.length) :
    get_total_log_likelihood_step1 input_likelihoods mprobs =
        get_total_log_likelihood_step1 (input_likelihoods.take mprobs.length) mprobs ∧
      get_total_log_likelihood_step1 input_likelihoods mprobs =
        ∑ i ∈ Finset.range mprobs.length, input_likelihoods.getD i 0 * mprobs.getD i 0 := by
  constructor
  · simp only [get_total_log_likelihood_step1, List.length_take,
      min_eq_left (Nat.le_of_lt h)]
    apply foldl_range_ext
    intro i hi acc
    rw [getD_take _ _ _ _ hi]
  · have h2 := foldl_add_eq_sum
      (fun i => input_likelihoods.getD i 0 * mprobs.getD i 0) mprobs.length 0
    simpa [get_total_log_likelihood_step1] using h2

/-- Witness for C10 at `input_likelihoods = [1, 2, 3]`, `mprobs = [10]`. -/
theorem claim_C10_witness :
    [(10 : ℚ)].length < [(1 : ℚ), 2, 3].length ∧
      (get_total_log_likelihood_step1 [1, 2, 3] [10] =
          get_total_log_likelihood_step1 ([(1 : ℚ), 2, 3].take [(10 : ℚ)].length) [10] ∧
        get_total_log_likelihood_step1 [1, 2, 3] [10] =
          ∑ i ∈ Finset.range [(10 : ℚ)].length,
            [(1 : ℚ), 2, 3].getD i 0 * [(10 : ℚ)].getD i 0) :=
  ⟨by decide, claim_C10_step1_truncates [1, 2, 3] [10] (by decide)⟩

/-- C9 (implicit): with zero children (`child_indexes` empty), the Node
Combiner raises no error and returns the caller-supplied buffer completely
unchanged — every entry keeps its prior, possibly stale, value. -/
theorem claim_C9_no_children_buffer_unchanged (result : List (List ℚ))
    (likelihoods : List (List (List ℚ))) :
    sum_input_likelihoods [] result likelihoods = result := rfl

/-- C2: with equal-length arrays and every likelihood positive,
`get_log_sum_across_sites` returns exactly `∑ i, ln(lhs[i]) * counts[i]`
(a finite extended real). -/
theorem claim_C2_log_sum (lhs counts : List ℝ)
    (hlen : lhs.length = counts.length)
    (hpos : ∀ i, i < lhs.length → 0 < lhs.getD i 0) :
    get_log_sum_across_sites lhs counts =
      ((∑ i ∈ Finset.range counts.length,
          Real.log (lhs.getD i 0) * counts.getD i 0 : ℝ) : EReal) := by
  have h2 := foldl_add_eq_sum
    (fun i => (lhs.map npLog).getD i 0 * ((counts.getD i 0 : ℝ) : EReal)) counts.length 0
  have h3 : get_log_sum_across_sites lhs counts =
      ∑ i ∈ Finset.range counts.length,
        (lhs.map npLog).getD i 0 * ((counts.getD i 0 : ℝ) : EReal) := by
    simpa [get_log_sum_across_sites] using h2
  rw [h3, coe_sum_range]
  apply Finset.sum_congr rfl
  intro i hi
  rw [Finset.mem_range] at hi
  have hil : i < lhs.length := by omega
  rw [getD_map_lt npLog lhs i _ 0 hil]
  simp only [npLog]
  rw [if_neg (ne_of_gt (hpos i hil)), EReal.coe_mul]

/-- Witness for C2 at `lhs = [1]`, `counts = [2]`. -/
theorem claim_C2_witness :
    [(1 : ℝ)].length = [(2 : ℝ)].length ∧
      get_log_sum_across_sites [(1 : ℝ)] [(2 : ℝ)] =
        ((∑ i ∈ Finset.range [(2 : ℝ)].length,
            Real.log ([(1 : ℝ)].getD i 0) * [(2 : ℝ)].getD i 0 : ℝ) : EReal) :=
  ⟨rfl, claim_C2_log_sum [1] [2] rfl (fun i hi => by
    have hi0 : i = 0 := by simp at hi; omega
    subst hi0
    norm_num)⟩

/-- C4: a zero likelihood total at a pattern with positive count is not an
error: `get_log_sum_across_sites` completes and returns `⊥` (numpy's `-inf`),
the pattern's `log 0 * count` term being `-inf`. -/
theorem claim_C4_zero_total_bot (lhs counts : List ℝ) (p : ℕ)
    (hlen : lhs.length = counts.length) (hp : p < counts.length)
    (hzero : lhs.getD p 0 = 0) (hcount : 0 < counts.getD p 0)
    (hothers : ∀ i, i < lhs.length → i ≠ p → 0 < lhs.getD i 0) :
    get_log_sum_across_sites lhs counts = ⊥ := by
  have hterm : (fun i => (lhs.map npLog).getD i 0 * ((counts.getD i 0 : ℝ) : EReal)) p = ⊥ := by
    simp only
    rw [getD_map_lt npLog lhs p _ 0 (by omega), hzero]
    simp only [npLog, if_pos]
    exact EReal.bot_mul_coe_of_pos hcount
  have h2 := foldl_add_bot
    (fun i => (lhs.map npLog).getD i 0 * ((counts.getD i 0 : ℝ) : EReal))
    counts.length p hp hterm 0
  simpa [get_log_sum_across_sites] using h2

/-- Witness for C4 at `lhs = [0]`, `counts = [1]`. -/
theorem claim_C4_witness :
    [(0 : ℝ)].length = [(1 : ℝ)].length ∧ (0 : ℝ) < [(1 : ℝ)].getD 0 0 ∧
      get_log_sum_across_sites [(0 : ℝ)] [(1 : ℝ)] = ⊥ :=
  ⟨rfl, by norm_num,
   claim_C4_zero_total_bot [0] [1] 0 rfl (by norm_num) (by norm_num) (by norm_num)
     (fun i hi hne => by simp at hi; omega)⟩

/-- C8: the log-likelihood is linear in each pattern's count: replacing
`counts[p]` by `f * counts[p]` shifts the returned value by exactly
`(f - 1) * counts[p] * ln(lhs[p])`. -/
theorem claim_C8_count_linearity (lhs counts : List ℝ) (p : ℕ) (f : ℝ)
    (hlen : lhs.length = counts.length) (hp : p < counts.length)
    (hpos : 0 < lhs.getD p 0) :
    get_log_sum_across_sites lhs (counts.set p (f * counts.getD p 0)) =
      get_log_sum_across_sites lhs counts +
        (((f - 1) * counts.getD p 0 * Real.log (lhs.getD p 0) : ℝ) : EReal) := by
  have hlog : (lhs.map npLog).getD p 0 = ((Real.log (lhs.getD p 0) : ℝ) : EReal) := by
    rw [getD_map_lt npLog lhs p _ 0 (by omega)]
    simp only [npLog]
    rw [if_neg (ne_of_gt hpos)]
  have h2 := foldl_add_shift
    (fun i => (lhs.map npLog).getD i 0 * ((counts.getD i 0 : ℝ) : EReal))
    (fun i => (lhs.map npLog).getD i 0 *
      (((counts.set p (f * counts.getD p 0)).getD i 0 : ℝ) : EReal))
    p ((f - 1) * counts.getD p 0 * Real.log (lhs.getD p 0))
    (fun i hi => by
      simp only
      rw [getD_set_ne _ _ _ _ _ (fun e => hi e.symm)])
    (by
      simp only
      rw [getD_set_self _ _ _ _ hp, hlog]
      rw [← EReal.coe_mul, ← EReal.coe_mul, ← EReal.coe_add]
      norm_cast
      ring)
    counts.length hp 0
  simp only [get_log_sum_across_sites, List.length_set]
  exact h2

/-- Witness for C8 at `lhs = [1]`, `counts = [1]`, `p = 0`, `f = 2`. -/
theorem claim_C8_witness :
    (0 : ℕ) < [(1 : ℝ)].length ∧ (0 : ℝ) < [(1 : ℝ)].getD 0 0 ∧
      get_log_sum_across_sites [(1 : ℝ)] ([(1 : ℝ)].set 0 (2 * [(1 : ℝ)].getD 0 0)) =
        get_log_sum_across_sites [(1 : ℝ)] [(1 : ℝ)] +
          ((((2 : ℝ) - 1) * [(1 : ℝ)].getD 0 0 * Real.log ([(1 : ℝ)].getD 0 0) : ℝ) : EReal) :=
  ⟨by norm_num, by norm_num,
   claim_C8_count_linearity [1] [1] 0 2 rfl (by norm_num) (by norm_num)⟩

/-- C1: with at least one child, every index map as long as the result buffer
and all map values valid row indices, each entry of the returned matrix is
`result[p, m] = ∏ c, likelihoods[c][child_indexes[c][p], m]`; the formula
holds for every prior buffer content because the first child assigns (rather
than multiplies) and later children multiply in place. -/
theorem claim_C1_combiner_product (child_indexes : List (List ℕ))
    (result : List (List ℚ)) (likelihoods : List (List (List ℚ)))
    (h0 : child_indexes ≠ [])
    (hmap : ∀ c, c < child_indexes.length →
      (child_indexes.getD c []).length = result.length)
    (hvalid : ∀ c, c < child_indexes.length → ∀ p, p < result.length →
      (child_indexes.getD c []).getD p 0 < (likelihoods.getD c []).length)
    (hrect : ∀ p, p < result.length →
      (result.getD p []).length = (result.headD []).length)
    (p m : ℕ) (hp : p < result.length) (hm : m < (result.headD []).length) :
    ((sum_input_likelihoods child_indexes result likelihoods).getD p []).getD m 0 =
      ∏ c ∈ Finset.range child_indexes.length,
        ((likelihoods.getD c []).getD ((child_indexes.getD c []).getD p 0) []).getD m 0 :=
  sum_input_getD child_indexes result likelihoods h0 hmap hrect p m hp hm

/-- Witness for C1: two children, one parent pattern, two motifs;
`result[0, 0] = 2 * 5` and the buffer's stale `9`s are irrelevant. -/
theorem claim_C1_witness :
    ([[0], [0]] : List (List ℕ)) ≠ [] ∧
      ((sum_input_likelihoods [[0], [0]] [[(9 : ℚ), 9]] [[[2, 3]], [[5, 7]]]).getD 0 []).getD 0 0 =
        ∏ c ∈ Finset.range ([[0], [0]] : List (List ℕ)).length,
          (([[[(2 : ℚ), 3]], [[5, 7]]].getD c []).getD
            ((([[0], [0]] : List (List ℕ)).getD c []).getD 0 0) []).getD 0 0 :=
  ⟨by decide,
   claim_C1_combiner_product [[0], [0]] [[(9 : ℚ), 9]] [[[2, 3]], [[5, 7]]]
     (by decide) (by decide) (by decide) (by decide) 0 0 (by decide) (by decide)⟩

/-- C5: the returned matrix is independent of the buffer's prior contents —
two runs over the same children from two same-shaped buffers (whose row count
matches the first child's index map) return identical matrices, because the
first child's pass overwrites every entry before any entry is read. -/
theorem claim_C5_buffer_independence (child_indexes : List (List ℕ))
    (likelihoods : List (List (List ℚ))) (b1 b2 : List (List ℚ)) (W : ℕ)
    (h0 : child_indexes ≠ [])
    (hm0 : (child_indexes.getD 0 []).length = b1.length)
    (hlen : b1.length = b2.length)
    (hW1 : (b1.headD []).length = W) (hW2 : (b2.headD []).length = W)
    (hrect1 : ∀ p, p < b1.length → (b1.getD p []).length = W)
    (hrect2 : ∀ p, p < b2.length → (b2.getD p []).length = W) :
    sum_input_likelihoods child_indexes b1 likelihoods =
      sum_input_likelihoods child_indexes b2 likelihoods := by
  obtain ⟨K, hK⟩ : ∃ K, child_indexes.length = K + 1 := by
    cases child_indexes with
    | nil => exact absurd rfl h0
    | cons a t => exact ⟨t.length, rfl⟩
  have hfirst : childPass ((0 : ℕ) == 0) (child_indexes.getD 0 [])
        (likelihoods.getD 0 []) b1 =
      childPass ((0 : ℕ) == 0) (child_indexes.getD 0 []) (likelihoods.getD 0 []) b2 :=
    childPass_first_ext (child_indexes.getD 0 []) (likelihoods.getD 0 []) b1 b2 W
      hm0.symm (by omega) hW1 hW2 hrect1 hrect2
  simp only [sum_input_likelihoods]
  rw [hK, List.range_succ_eq_map]
  simp only [List.foldl_cons]
  rw [hfirst]

/-- Witness for C5: the buffers `[[3, 4]]` and `[[9, 8]]` yield the same
output matrix. -/
theorem claim_C5_witness :
    ([[0]] : List (List ℕ)) ≠ [] ∧
      sum_input_likelihoods [[0]] [[(3 : ℚ), 4]] [[[2, 3]]] =
        sum_input_likelihoods [[0]] [[(9 : ℚ), 8]] [[[2, 3]]] :=
  ⟨by decide,
   claim_C5_buffer_independence [[0]] [[[2, 3]]] [[(3 : ℚ), 4]] [[(9 : ℚ), 8]] 2
     (by decide) (by decide) (by decide) (by decide) (by decide) (by decide) (by decide)⟩

/-- C6: the Node Combiner is commutative in its children — permuting the
(index map, likelihood matrix) pairs simultaneously yields the identical
matrix, in exact (idealized real/rational) arithmetic. -/
theorem claim_C6_child_permutation (ci1 : List (List ℕ)) (lhs1 : List (List (List ℚ)))
    (ci2 : List (List ℕ)) (lhs2 : List (List (List ℚ))) (res : List (List ℚ))
    (hl1 : ci1.length = lhs1.length) (hl2 : ci2.length = lhs2.length)
    (hperm : (ci1.zip lhs1).Perm (ci2.zip lhs2))
    (hmap : ∀ pr ∈ ci1.zip lhs1, pr.1.length = res.length)
    (hrect : ∀ p, p < res.length → (res.getD p []).length = (res.headD []).length) :
    sum_input_likelihoods ci1 res lhs1 = sum_input_likelihoods ci2 res lhs2 := by
  have hz1len : (ci1.zip lhs1).length = ci1.length := by
    rw [List.length_zip, hl1, min_self]
  have hz2len : (ci2.zip lhs2).length = ci2.length := by
    rw [List.length_zip, hl2, min_self]
  have hcc : ci1.length = ci2.length := by
    have := hperm.length_eq
    omega
  by_cases h0 : ci1 = []
  · subst h0
    have h02 : ci2.length = 0 := by simpa using hcc.symm
    have h03 : ci2 = [] := List.length_eq_zero.mp h02
    subst h03
    rfl
  · have h02 : ci2 ≠ [] := by
      intro h
      apply h0
      apply List.length_eq_zero.mp
      rw [hcc, h]
      rfl
    have hmap1 : ∀ c, c < ci1.length → (ci1.getD c []).length = res.length := by
      intro c hc
      have hcz : c < (ci1.zip lhs1).length := by omega
      have h1 := hmap _ (List.getElem_mem hcz)
      rw [List.getElem_zip] at h1
      rw [List.getD_eq_getElem _ _ hc]
      exact h1
    have hmap2 : ∀ c, c < ci2.length → (ci2.getD c []).length = res.length := by
      intro c hc
      have hcz : c < (ci2.zip lhs2).length := by omega
      have h1 := hmap _ (hperm.mem_iff.mpr (List.getElem_mem hcz))
      rw [List.getElem_zip] at h1
      rw [List.getD_eq_getElem _ _ hc]
      exact h1
    have hprod : ∀ p m : ℕ,
        (∏ c ∈ Finset.range ci1.length,
          ((lhs1.getD c []).getD ((ci1.getD c []).getD p 0) []).getD m 0) =
        ∏ c ∈ Finset.range ci2.length,
          ((lhs2.getD c []).getD ((ci2.getD c []).getD p 0) []).getD m 0 := by
      intro p m
      have e1 : (∏ c ∈ Finset.range ci1.length,
          ((lhs1.getD c []).getD ((ci1.getD c []).getD p 0) []).getD m 0) =
          ((ci1.zip lhs1).map
            (fun pr => (pr.2.getD (pr.1.getD p 0) []).getD m 0)).prod := by
        rw [list_map_prod_eq _ _ ([], []), hz1len]
        apply Finset.prod_congr rfl
        intro c hc
        rw [Finset.mem_range] at hc
        have hcz : c < (ci1.zip lhs1).length := by omega
        rw [List.getD_eq_getElem _ ([], []) hcz, List.getElem_zip]
        rw [List.getD_eq_getElem ci1 [] hc,
          List.getD_eq_getElem lhs1 [] (show c < lhs1.length by omega)]
      have e2 : (∏ c ∈ Finset.range ci2.length,
          ((lhs2.getD c []).getD ((ci2.getD c []).getD p 0) []).getD m 0) =
          ((ci2.zip lhs2).map
            (fun pr => (pr.2.getD (pr.1.getD p 0) []).getD m 0)).prod := by
        rw [list_map_prod_eq _ _ ([], []), hz2len]
        apply Finset.prod_congr rfl
        intro c hc
        rw [Finset.mem_range] at hc
        have hcz : c < (ci2.zip lhs2).length := by omega
        rw [List.getD_eq_getElem _ ([], []) hcz, List.getElem_zip]
        rw [List.getD_eq_getElem ci2 [] hc,
          List.getD_eq_getElem lhs2 [] (show c < lhs2.length by omega)]
      rw [e1, e2]
      exact List.Perm.prod_eq (hperm.map _)
    apply List.ext_getElem
    · rw [sum_input_length, sum_input_length]
    · intro p hp1 hp2
      have hp : p < res.length := by rwa [sum_input_length] at hp1
      rw [← List.getD_eq_getElem _ [] hp1, ← List.getD_eq_getElem _ [] hp2]
      apply List.ext_getElem
      · rw [sum_input_row_length, sum_input_row_length]
      · intro m hm1 hm2
        have hm : m < (res.headD []).length := by
          rw [sum_input_row_length, hrect p hp] at hm1
          exact hm1
        rw [← List.getD_eq_getElem _ 0 hm1, ← List.getD_eq_getElem _ 0 hm2]
        rw [sum_input_getD ci1 res lhs1 h0 hmap1 hrect p m hp hm,
          sum_input_getD ci2 res lhs2 h02 hmap2 hrect p m hp hm]
        exact hprod p m

/-- Witness for C6: swapping the two children (maps together with matrices)
yields the identical output matrix. -/
theorem claim_C6_witness :
    (([[0], [0]] : List (List ℕ)).zip [[[(2 : ℚ), 3]], [[5, 7]]]).Perm
        (([[0], [0]] : List (List ℕ)).zip [[[(5 : ℚ), 7]], [[2, 3]]]) ∧
      sum_input_likelihoods [[0], [0]] [[(1 : ℚ), 1]] [[[2, 3]], [[5, 7]]] =
        sum_input_likelihoods [[0], [0]] [[(1 : ℚ), 1]] [[[5, 7]], [[2, 3]]] :=
  ⟨by decide,
   claim_C6_child_permutation [[0], [0]] [[[2, 3]], [[5, 7]]] [[0], [0]]
     [[[5, 7]], [[2, 3]]] [[(1 : ℚ), 1]]
     (by decide) (by decide) (by decide) (by decide) (by decide)⟩

/-- C7 counterexample: called with two index maps but a single child
likelihood matrix (an inconsistent dimension), `sum_input_likelihoods`
raises nothing and still computes and returns a result buffer — the claimed
synchronous ShapeMismatch error does not exist in the code, which contains
no dimension check at all. -/
theorem claim_C7_counterexample :
    sum_input_likelihoods [[0], [0]] [[(5 : ℚ)]] [[[2]]] = [[0]] := by
  apply List.ext_getElem
  · rw [sum_input_length]
    rfl
  · intro p hp1 hp2
    have hp0 : p = 0 := by
      rw [sum_input_length] at hp1
      simp at hp1
      exact hp1
    subst hp0
    rw [← List.getD_eq_getElem _ [] hp1]
    apply List.ext_getElem
    · rw [sum_input_row_length]
      rfl
    · intro m hm1 hm2
      have hm0 : m = 0 := by
        rw [sum_input_row_length] at hm1
        simp at hm1
        exact hm1
      subst hm0
      rw [← List.getD_eq_getElem _ 0 hm1]
      rw [sum_input_getD [[0], [0]] [[(5 : ℚ)]] [[[2]]] (by decide)
        (by decide) (by decide) 0 0 (by decide) (by decide)]
      simp [Finset.prod_range_succ]

/-- C7 (amended): `sum_input_likelihoods` performs no dimension validation
whatsoever — on every input, consistent or not, it completes normally and
returns a buffer of the same shape as the caller-supplied one (out-of-bounds
accesses in the compiled kernel are unchecked rather than trapped). -/
theorem claim_C7_no_validation (child_indexes : List (List ℕ))
    (result : List (List ℚ)) (likelihoods : List (List (List ℚ))) :
    (sum_input_likelihoods child_indexes result likelihoods).length = result.length ∧
      ∀ p, ((sum_input_likelihoods child_indexes result likelihoods).getD p []).length =
        (result.getD p []).length :=
  ⟨sum_input_length _ _ _, fun p => sum_input_row_length _ _ _ p⟩

end LikelihoodTree
